import Mathlib

/-!
Verification of the course-eligibility checker
(`src/course_eligibility_checker.py`).

The program loads an RDF graph (a set of subject–predicate–object triples)
and answers fixed SPARQL queries over it.  We embed the graph as a list of
triples and each query method of `CourseEligibilityChecker` as an executable
Lean function computing the same result set the corresponding SPARQL query
computes over that graph.
-/

namespace UCO

/-- An RDF object position: an IRI node, a string literal, or an integer
literal (used for `creditHours`). -/
inductive Obj where
  | iri (s : String)
  | litS (s : String)
  | litI (n : Int)
deriving DecidableEq

/-- A subject–predicate–object triple.  Subjects and predicates in this
ontology are always IRIs, which we identify by their local name. -/
structure Triple where
  subj : String
  pred : String
  obj  : Obj
deriving DecidableEq

/-- The loaded graph: `self.g` in the Python class. -/
abbrev Graph := List Triple

/-- The IRI carried by an object position, if any. -/
def Obj.asIri : Obj → Option String
  | .iri s => some s
  | _ => none

/-- The string literal carried by an object position, if any. -/
def Obj.asLitS : Obj → Option String
  | .litS s => some s
  | _ => none

/-- The integer literal carried by an object position, if any. -/
def Obj.asLitI : Obj → Option Int
  | .litI n => some n
  | _ => none

/-- All IRI objects of triples `(s, p, ·)` in `g` (set semantics: no
duplicates). -/
def outIris (g : Graph) (s p : String) : List String :=
  (g.filterMap fun t =>
    if t.subj = s ∧ t.pred = p then t.obj.asIri else none).dedup

/-- All string-literal objects of triples `(s, p, ·)` in `g`. -/
def outLitS (g : Graph) (s p : String) : List String :=
  (g.filterMap fun t =>
    if t.subj = s ∧ t.pred = p then t.obj.asLitS else none).dedup

/-- All integer-literal objects of triples `(s, p, ·)` in `g`. -/
def outLitI (g : Graph) (s p : String) : List Int :=
  (g.filterMap fun t =>
    if t.subj = s ∧ t.pred = p then t.obj.asLitI else none).dedup

/-- All subjects of triples `(·, p, o)` in `g`. -/
def subjectsWith (g : Graph) (p : String) (o : Obj) : List String :=
  (g.filterMap fun t =>
    if t.pred = p ∧ t.obj = o then some t.subj else none).dedup

/-- The courses carrying `courseCode` `code`: the solutions of the pattern
`?course :courseCode "code"`. -/
def coursesWithCode (g : Graph) (code : String) : List String :=
  subjectsWith g "courseCode" (.litS code)

/-- Embeds `get_courses_taken`: the codes of the courses the student `hasTaken`
(a Python set, embedded as a duplicate-free list). -/
def get_courses_taken (g : Graph) (sid : String) : List String :=
  ((outIris g sid "hasTaken").flatMap fun c => outLitS g c "courseCode").dedup

/-- The direct `hasPrerequisite` successors of a course node. -/
def stepPrereq (g : Graph) (c : String) : List String :=
  outIris g c "hasPrerequisite"

/-- All IRIs occurring as object of a `hasPrerequisite` triple: every node
reachable by one or more `hasPrerequisite` steps lies in this list. -/
def prereqTargets (g : Graph) : List String :=
  (g.filterMap fun t =>
    if t.pred = "hasPrerequisite" then t.obj.asIri else none).dedup

/-- One worklist round: the `hasPrerequisite` successors of the frontier
that have not been discovered yet. -/
def newOf (g : Graph) (frontier acc : List String) : List String :=
  ((frontier.flatMap (stepPrereq g)).filter (fun x => ¬ x ∈ acc)).dedup

/-- Worklist evaluation of the SPARQL property path `hasPrerequisite+`:
`frontier` holds the newly discovered nodes, `acc` all discovered nodes.
`fuel` bounds the number of rounds; `prereqTargets g |>.length + 1` rounds
always suffice (each productive round grows `acc` inside that list). -/
def reachAux (g : Graph) : Nat → List String → List String → List String
  | 0, _, acc => acc
  | fuel + 1, frontier, acc =>
    if (newOf g frontier acc).isEmpty then acc
    else reachAux g fuel (newOf g frontier acc) (acc ++ newOf g frontier acc)

/-- The nodes reachable from some element of `starts` by one or more
`hasPrerequisite` steps. -/
def reachPlus (g : Graph) (starts : List String) : List String :=
  let first := (starts.flatMap (stepPrereq g)).dedup
  reachAux g ((prereqTargets g).length + 1) first first

/-- Embeds `get_prerequisites`: codes of all direct and indirect prerequisites
(SPARQL `SELECT DISTINCT` over the path `hasPrerequisite+`). -/
def get_prerequisites (g : Graph) (code : String) : List String :=
  ((reachPlus g (coursesWithCode g code)).flatMap
    fun p => outLitS g p "courseCode").dedup

/-- Embeds `get_direct_prerequisites`: codes of the direct prerequisites only. -/
def get_direct_prerequisites (g : Graph) (code : String) : List String :=
  (coursesWithCode g code).flatMap fun c =>
    (stepPrereq g c).flatMap fun p => outLitS g p "courseCode"

/-- Embeds `can_enroll`: `(True, [])` when the prerequisite set is empty, otherwise
`(missing == ∅, sorted missing)` where `missing` is the prerequisite set
minus the completed-course set. -/
def can_enroll (g : Graph) (sid code : String) : Bool × List String :=
  let taken := get_courses_taken g sid
  let prerequisites := get_prerequisites g code
  if prerequisites.isEmpty then (true, [])
  else
    let missing := (prerequisites.filter fun c => ¬ c ∈ taken).mergeSort
      (fun a b => a ≤ b)
    (missing.isEmpty, missing)

/-- One entry of the `get_available_courses` result. -/
structure AvailableCourse where
  code : String
  name : String
  credits : Int
deriving DecidableEq

/-- The solutions of the course-listing pattern: `?course a :Course` with a
`courseCode`, `courseName` and `creditHours`. -/
def courseRows (g : Graph) : List (String × String × Int) :=
  (subjectsWith g "a" (.iri "Course")).flatMap fun c =>
    (outLitS g c "courseCode").flatMap fun cc =>
      (outLitS g c "courseName").flatMap fun nm =>
        (outLitI g c "creditHours").map fun cr => (cc, nm, cr)

/-- Embeds `get_available_courses`: every course row whose code is not already
taken and for which `can_enroll` responds positively. -/
def get_available_courses (g : Graph) (sid : String) : List AvailableCourse :=
  let taken := get_courses_taken g sid
  (courseRows g).filterMap fun r =>
    if r.1 ∈ taken then none
    else if (can_enroll g sid r.1).1 then some ⟨r.1, r.2.1, r.2.2⟩
    else none

/-- One entry of the professor-workload report. -/
structure WorkloadEntry where
  professor : String
  department : String
  courses : Nat
deriving DecidableEq

/-- The solution rows of the workload pattern, projected to the grouping key
`(?profName, ?deptName)`: one row per match of `?prof a :Professor`,
`?prof :professorName ?profName`, `?prof :worksInDepartment ?dept`,
`?dept :departmentName ?deptName`, `?course :taughtBy ?prof`. -/
def workloadRows (g : Graph) : List (String × String) :=
  (subjectsWith g "a" (.iri "Professor")).flatMap fun prof =>
    (outLitS g prof "professorName").flatMap fun pn =>
      (outIris g prof "worksInDepartment").flatMap fun dept =>
        (outLitS g dept "departmentName").flatMap fun dn =>
          (subjectsWith g "taughtBy" (.iri prof)).map fun _ => (pn, dn)

/-- The `GROUP BY ?profName ?deptName` aggregation with
`COUNT(?course)` per group. -/
def workloadGroups (g : Graph) : List WorkloadEntry :=
  (workloadRows g).dedup.map fun k =>
    ⟨k.1, k.2, (workloadRows g).count k⟩

/-- Embeds `get_professor_workload`: the groups ordered by
`ORDER BY DESC(?courseCount)`. -/
def get_professor_workload (g : Graph) : List WorkloadEntry :=
  (workloadGroups g).mergeSort fun a b => b.courses ≤ a.courses

/-- The result record of `get_course_info`. -/
structure CourseInfo where
  code : String
  name : String
  credits : Int
  professor : String
  department : String
  direct_prerequisites : List String
  all_prerequisites : List String
deriving DecidableEq

/-- The professor names attached to a course: solutions of the optional
pattern `?course :taughtBy ?prof . ?prof :professorName ?profName`. -/
def profNamesOf (g : Graph) (c : String) : List String :=
  (outIris g c "taughtBy").flatMap fun p => outLitS g p "professorName"

/-- The department names attached to a course: solutions of the optional
pattern `?course :belongsToDepartment ?dept . ?dept :departmentName ?d`. -/
def deptNamesOf (g : Graph) (c : String) : List String :=
  (outIris g c "belongsToDepartment").flatMap fun d =>
    outLitS g d "departmentName"

/-- SPARQL `OPTIONAL` semantics for a projected variable: one unbound row
when the optional pattern has no solution, otherwise one bound row per
solution. -/
def optJoin : List String → List (Option String)
  | [] => [none]
  | l => l.map some

/-- The solution rows of the `get_course_info` query:
`(?courseName, ?credits, ?profName, ?deptName)` with the two optional
fields. -/
def infoRows (g : Graph) (code : String) :
    List (String × Int × Option String × Option String) :=
  (coursesWithCode g code).flatMap fun c =>
    (outLitS g c "courseName").flatMap fun nm =>
      (outLitI g c "creditHours").flatMap fun cr =>
        (optJoin (profNamesOf g c)).flatMap fun pn =>
          (optJoin (deptNamesOf g c)).map fun dn => (nm, cr, pn, dn)

/-- Python truthiness of an optional rdflib literal: `None` and the empty
string are falsy, so `str(x) if x else 'N/A'` yields `'N/A'` exactly for
an absent or empty value. -/
def orNA : Option String → String
  | none => "N/A"
  | some s => if s = "" then "N/A" else s

/-- Embeds `get_course_info`: `None` when the query has no result, otherwise a
record built from the first row plus both prerequisite lists. -/
def get_course_info (g : Graph) (code : String) : Option CourseInfo :=
  match infoRows g code with
  | [] => none
  | row :: _ =>
    some { code := code
           name := row.1
           credits := row.2.1
           professor := orNA row.2.2.1
           department := orNA row.2.2.2
           direct_prerequisites := get_direct_prerequisites g code
           all_prerequisites := get_prerequisites g code }

/-- The checker object: its only state is the loaded graph `self.g`. -/
structure Checker where
  g : Graph

/-- One call to a query method of the checker. -/
inductive QueryCall where
  | coursesTaken (sid : String)
  | prereqs (code : String)
  | directPrereqs (code : String)
  | canEnroll (sid code : String)
  | availableCourses (sid : String)
  | professorWorkload
  | courseInfo (code : String)

/-- The result of one query call. -/
inductive QueryResult where
  | strs (l : List String)
  | enroll (r : Bool × List String)
  | avail (l : List AvailableCourse)
  | workload (l : List WorkloadEntry)
  | info (i : Option CourseInfo)

/-- Method-call convention: each call receives the checker and returns its
result together with the checker state after the call. -/
def runCall (c : Checker) : QueryCall → QueryResult × Checker
  | .coursesTaken sid => (.strs (get_courses_taken c.g sid), c)
  | .prereqs code => (.strs (get_prerequisites c.g code), c)
  | .directPrereqs code => (.strs (get_direct_prerequisites c.g code), c)
  | .canEnroll sid code => (.enroll (can_enroll c.g sid code), c)
  | .availableCourses sid => (.avail (get_available_courses c.g sid), c)
  | .professorWorkload => (.workload (get_professor_workload c.g), c)
  | .courseInfo code => (.info (get_course_info c.g code), c)

/-- Running a sequence of query calls, threading the checker state. -/
def runCalls (c : Checker) (qs : List QueryCall) : Checker :=
  qs.foldl (fun c q => (runCall c q).2) c

/-! ## Specification-side relations -/

/-- Course `b` is a direct prerequisite of course `a`: the triple
`(a, hasPrerequisite, b)` is in the graph. -/
def PrereqRel (g : Graph) (a b : String) : Prop :=
  (⟨a, "hasPrerequisite", .iri b⟩ : Triple) ∈ g

/-- Node `c` carries `courseCode` `code`. -/
def CodeOf (g : Graph) (c code : String) : Prop :=
  (⟨c, "courseCode", .litS code⟩ : Triple) ∈ g

/-- Code `x` is the code of a transitive prerequisite of a course with code
`code`: some course carrying `code` reaches, in one or more
`hasPrerequisite` steps, a course carrying `x`. -/
def ReachCode (g : Graph) (code x : String) : Prop :=
  ∃ c p, CodeOf g c code ∧ Relation.TransGen (PrereqRel g) c p ∧ CodeOf g p x

/-- Node `c` is declared a `Course`. -/
def IsCourse (g : Graph) (c : String) : Prop :=
  (⟨c, "a", .iri "Course"⟩ : Triple) ∈ g

/-- Node `c` carries `courseName` `nm`. -/
def NameOf (g : Graph) (c nm : String) : Prop :=
  (⟨c, "courseName", .litS nm⟩ : Triple) ∈ g

/-- Node `c` carries `creditHours` `cr`. -/
def CreditsOf (g : Graph) (c : String) (cr : Int) : Prop :=
  (⟨c, "creditHours", .litI cr⟩ : Triple) ∈ g

/-- A `taughtBy` professor of course `c` carries `professorName` `pn`. -/
def TaughtName (g : Graph) (c pn : String) : Prop :=
  ∃ p, (⟨c, "taughtBy", .iri p⟩ : Triple) ∈ g ∧
    (⟨p, "professorName", .litS pn⟩ : Triple) ∈ g

/-- The `belongsToDepartment` department of course `c` carries
`departmentName` `dn`. -/
def DeptName (g : Graph) (c dn : String) : Prop :=
  ∃ d, (⟨c, "belongsToDepartment", .iri d⟩ : Triple) ∈ g ∧
    (⟨d, "departmentName", .litS dn⟩ : Triple) ∈ g

/-- The nodes declared `Course` in the graph (for counting courses). -/
def coursesInGraph (g : Graph) : List String :=
  subjectsWith g "a" (.iri "Course")

/-! ## Concrete graphs used as test inputs -/

/-- A graph with a typed course carrying a code but no `courseName` or
`creditHours`. -/
def g3 : Graph :=
  [⟨"C1", "a", .iri "Course"⟩, ⟨"C1", "courseCode", .litS "X"⟩]

/-- A graph with one declared course that is not `taughtBy` anyone. -/
def g4 : Graph := [⟨"C1", "a", .iri "Course"⟩]

/-- A graph where course `A` (code `"A"`) has direct prerequisite `B`
(code `"B"`). -/
def g5 : Graph :=
  [⟨"A", "courseCode", .litS "A"⟩, ⟨"B", "courseCode", .litS "B"⟩,
   ⟨"A", "hasPrerequisite", .iri "B"⟩]

/-- A graph whose course `C1` is taught by a professor whose
`professorName` is the empty string. -/
def g9 : Graph :=
  [⟨"C1", "courseCode", .litS "X"⟩, ⟨"C1", "courseName", .litS "N"⟩,
   ⟨"C1", "creditHours", .litI 3⟩, ⟨"C1", "taughtBy", .iri "P1"⟩,
   ⟨"P1", "professorName", .litS ""⟩]

/-- A graph whose course `C1` is taught by a professor named `Ada` and has
no department link. -/
def g9w : Graph :=
  [⟨"C1", "courseCode", .litS "X"⟩, ⟨"C1", "courseName", .litS "N"⟩,
   ⟨"C1", "creditHours", .litI 3⟩, ⟨"C1", "taughtBy", .iri "P1"⟩,
   ⟨"P1", "professorName", .litS "Ada"⟩]

/-! ## Membership characterisations of the query helpers -/

theorem mem_outIris {g : Graph} {s p b : String} :
    b ∈ outIris g s p ↔ (⟨s, p, .iri b⟩ : Triple) ∈ g := by
  simp only [outIris, List.mem_dedup, List.mem_filterMap]
  constructor
  · rintro ⟨t, ht, h⟩
    split at h
    · rename_i hc
      cases t with
      | mk ts tp ob =>
        obtain ⟨h1, h2⟩ := hc
        cases ob <;> simp [Obj.asIri] at h
        subst h1; subst h2; rename_i x; subst h; exact ht
    · exact absurd h (by simp)
  · intro h
    exact ⟨⟨s, p, .iri b⟩, h, by simp [Obj.asIri]⟩

theorem mem_outLitS {g : Graph} {s p b : String} :
    b ∈ outLitS g s p ↔ (⟨s, p, .litS b⟩ : Triple) ∈ g := by
  simp only [outLitS, List.mem_dedup, List.mem_filterMap]
  constructor
  · rintro ⟨t, ht, h⟩
    split at h
    · rename_i hc
      cases t with
      | mk ts tp ob =>
        obtain ⟨h1, h2⟩ := hc
        cases ob <;> simp [Obj.asLitS] at h
        subst h1; subst h2; rename_i x; subst h; exact ht
    · exact absurd h (by simp)
  · intro h
    exact ⟨⟨s, p, .litS b⟩, h, by simp [Obj.asLitS]⟩

theorem mem_outLitI {g : Graph} {s p : String} {b : Int} :
    b ∈ outLitI g s p ↔ (⟨s, p, .litI b⟩ : Triple) ∈ g := by
  simp only [outLitI, List.mem_dedup, List.mem_filterMap]
  constructor
  · rintro ⟨t, ht, h⟩
    split at h
    · rename_i hc
      cases t with
      | mk ts tp ob =>
        obtain ⟨h1, h2⟩ := hc
        cases ob <;> simp [Obj.asLitI] at h
        subst h1; subst h2; rename_i x; subst h; exact ht
    · exact absurd h (by simp)
  · intro h
    exact ⟨⟨s, p, .litI b⟩, h, by simp [Obj.asLitI]⟩

theorem mem_subjectsWith {g : Graph} {p : String} {o : Obj} {s : String} :
    s ∈ subjectsWith g p o ↔ (⟨s, p, o⟩ : Triple) ∈ g := by
  simp only [subjectsWith, List.mem_dedup, List.mem_filterMap]
  constructor
  · rintro ⟨t, ht, h⟩
    split at h
    · rename_i hc
      obtain ⟨h1, h2⟩ := hc
      cases t with
      | mk ts tp ob =>
        simp only [Option.some.injEq] at h
        subst h1; subst h2; subst h; exact ht
    · exact absurd h (by simp)
  · intro h
    exact ⟨⟨s, p, o⟩, h, by simp⟩

theorem mem_stepPrereq {g : Graph} {a b : String} :
    b ∈ stepPrereq g a ↔ PrereqRel g a b :=
  mem_outIris

theorem mem_coursesWithCode {g : Graph} {code c : String} :
    c ∈ coursesWithCode g code ↔ CodeOf g c code :=
  mem_subjectsWith

theorem stepPrereq_subset_targets {g : Graph} {a b : String}
    (h : b ∈ stepPrereq g a) : b ∈ prereqTargets g := by
  rw [mem_stepPrereq] at h
  simp only [prereqTargets, List.mem_dedup, List.mem_filterMap]
  exact ⟨⟨a, "hasPrerequisite", .iri b⟩, h, by simp [Obj.asIri]⟩

/-! ## Correctness of the worklist reachability computation -/

theorem mem_newOf {g : Graph} {frontier acc : List String} {y : String} :
    y ∈ newOf g frontier acc ↔
      (∃ x ∈ frontier, PrereqRel g x y) ∧ y ∉ acc := by
  simp only [newOf, List.mem_dedup, List.mem_filter, List.mem_flatMap,
    decide_not, Bool.not_eq_eq_eq_not, Bool.not_true, decide_eq_false_iff_not,
    mem_stepPrereq]

theorem subset_reachAux (g : Graph) :
    ∀ (fuel : Nat) (frontier acc : List String),
      ∀ x ∈ acc, x ∈ reachAux g fuel frontier acc := by
  intro fuel
  induction fuel with
  | zero => intro frontier acc x hx; simpa [reachAux] using hx
  | succ n ih =>
    intro frontier acc x hx
    rw [reachAux]
    split
    · exact hx
    · exact ih _ _ x (List.mem_append_left _ hx)

theorem reachAux_sound (g : Graph) (P : String → Prop)
    (hstep : ∀ x y, P x → PrereqRel g x y → P y) :
    ∀ (fuel : Nat) (frontier acc : List String),
      (∀ x ∈ acc, P x) → (∀ x ∈ frontier, x ∈ acc) →
      ∀ x ∈ reachAux g fuel frontier acc, P x := by
  intro fuel
  induction fuel with
  | zero => intro frontier acc hacc _ x hx; exact hacc x (by simpa [reachAux] using hx)
  | succ n ih =>
    intro frontier acc hacc hfr x hx
    rw [reachAux] at hx
    split at hx
    · exact hacc x hx
    · refine ih (newOf g frontier acc) (acc ++ newOf g frontier acc) ?_ ?_ x hx
      · intro z hz
        rcases List.mem_append.mp hz with h | h
        · exact hacc z h
        · obtain ⟨⟨w, hw, hwz⟩, _⟩ := mem_newOf.mp h
          exact hstep w z (hacc w (hfr w hw)) hwz
      · intro z hz; exact List.mem_append_right _ hz

theorem nodup_subset_length_le {l l' : List String}
    (hn : l.Nodup) (hs : ∀ x ∈ l, x ∈ l') : l.length ≤ l'.length := by
  calc l.length = l.toFinset.card := (List.toFinset_card_of_nodup hn).symm
    _ ≤ l'.toFinset.card := by
        apply Finset.card_le_card
        intro a ha
        rw [List.mem_toFinset] at ha ⊢
        exact hs a ha
    _ ≤ l'.length := List.toFinset_card_le l'

theorem reachAux_closed (g : Graph) :
    ∀ (fuel : Nat) (frontier acc : List String),
      acc.Nodup →
      (∀ x ∈ acc, x ∈ prereqTargets g) →
      (∀ x ∈ frontier, x ∈ acc) →
      (∀ x ∈ acc, x ∉ frontier → ∀ y, PrereqRel g x y → y ∈ acc) →
      (prereqTargets g).length + 1 ≤ fuel + acc.length →
      ∀ x ∈ reachAux g fuel frontier acc, ∀ y, PrereqRel g x y →
        y ∈ reachAux g fuel frontier acc := by
  intro fuel
  induction fuel with
  | zero =>
    intro frontier acc hnd hsub _ _ hlen
    exact absurd (nodup_subset_length_le hnd hsub) (by omega)
  | succ n ih =>
    intro frontier acc hnd hsub hfr hinv hlen x hx y hxy
    rw [reachAux] at hx ⊢
    split at hx
    · rename_i hemp
      rw [if_pos hemp]
      rcases Decidable.em (x ∈ frontier) with hxf | hxf
      · by_contra hyn
        have : y ∈ newOf g frontier acc := mem_newOf.mpr ⟨⟨x, hxf, hxy⟩, hyn⟩
        rw [List.isEmpty_iff] at hemp
        simp [hemp] at this
      · exact hinv x hx hxf y hxy
    · rename_i hemp
      rw [if_neg hemp]
      have hnew_nd : (newOf g frontier acc).Nodup := List.nodup_dedup _
      have hdisj : acc.Disjoint (newOf g frontier acc) := by
        intro a ha ha'
        exact (mem_newOf.mp ha').2 ha
      refine ih (newOf g frontier acc) (acc ++ newOf g frontier acc)
        (List.Nodup.append hnd hnew_nd hdisj) ?_ ?_ ?_ ?_ x hx y hxy
      · intro z hz
        rcases List.mem_append.mp hz with h | h
        · exact hsub z h
        · obtain ⟨⟨w, _, hwz⟩, _⟩ := mem_newOf.mp h
          exact stepPrereq_subset_targets (mem_stepPrereq.mpr hwz)
      · intro z hz; exact List.mem_append_right _ hz
      · intro z hz hznew w hzw
        rcases List.mem_append.mp hz with h | h
        · rcases Decidable.em (z ∈ frontier) with hzf | hzf
          · rcases Decidable.em (w ∈ acc) with hw | hw
            · exact List.mem_append_left _ hw
            · exact List.mem_append_right _
                (mem_newOf.mpr ⟨⟨z, hzf, hzw⟩, hw⟩)
          · exact List.mem_append_left _ (hinv z h hzf w hzw)
        · exact absurd h hznew
      · have h1 : 1 ≤ (newOf g frontier acc).length := by
          rcases List.isEmpty_iff.not.mp hemp with h
          cases hne : newOf g frontier acc with
          | nil => exact absurd (by simp [hne]) h
          | cons a l => simp [hne]
        simp only [List.length_append]
        omega

theorem mem_reachPlus (g : Graph) (starts : List String) (x : String) :
    x ∈ reachPlus g starts ↔
      ∃ s ∈ starts, Relation.TransGen (PrereqRel g) s x := by
  constructor
  · intro hx
    refine reachAux_sound g
      (fun z => ∃ s ∈ starts, Relation.TransGen (PrereqRel g) s z)
      (fun a b ⟨s, hs, hab⟩ hR => ⟨s, hs, hab.tail hR⟩) _ _ _ ?_
      (fun z hz => hz) x hx
    intro z hz
    rw [List.mem_dedup, List.mem_flatMap] at hz
    obtain ⟨s, hs, hz⟩ := hz
    exact ⟨s, hs, Relation.TransGen.single (mem_stepPrereq.mp hz)⟩
  · rintro ⟨s, hs, htr⟩
    obtain ⟨b, hsb, hbx⟩ := Relation.TransGen.head'_iff.mp htr
    have hfirst : ∀ z, (∃ s' ∈ starts, PrereqRel g s' z) →
        z ∈ reachPlus g starts := by
      rintro z ⟨s', hs', hz⟩
      refine subset_reachAux g _ _ _ z ?_
      rw [List.mem_dedup, List.mem_flatMap]
      exact ⟨s', hs', mem_stepPrereq.mpr hz⟩
    have hclosed : ∀ z ∈ reachPlus g starts, ∀ w, PrereqRel g z w →
        w ∈ reachPlus g starts := by
      intro z hz w hzw
      refine reachAux_closed g _ _ _ (List.nodup_dedup _) ?_
        (fun a ha => ha) (fun a ha ha' => absurd ha ha')
        (by omega) z hz w hzw
      intro a ha
      rw [List.mem_dedup, List.mem_flatMap] at ha
      obtain ⟨s', _, ha⟩ := ha
      exact stepPrereq_subset_targets ha
    clear htr
    induction hbx with
    | refl => exact hfirst b ⟨s, hs, hsb⟩
    | tail _ hlast ihstep => exact hclosed _ ihstep _ hlast

/-! ## Characterisations of the prerequisite queries -/

theorem mem_get_prerequisites {g : Graph} {code x : String} :
    x ∈ get_prerequisites g code ↔ ReachCode g code x := by
  simp only [get_prerequisites, List.mem_dedup, List.mem_flatMap,
    mem_reachPlus, mem_coursesWithCode, mem_outLitS, ReachCode]
  constructor
  · rintro ⟨p, ⟨c, hc, htr⟩, hcode⟩
    exact ⟨c, p, hc, htr, hcode⟩
  · rintro ⟨c, p, hc, htr, hcode⟩
    exact ⟨p, ⟨c, hc, htr⟩, hcode⟩

theorem nodup_get_prerequisites (g : Graph) (code : String) :
    (get_prerequisites g code).Nodup :=
  List.nodup_dedup _

theorem mem_get_direct_prerequisites {g : Graph} {code x : String} :
    x ∈ get_direct_prerequisites g code ↔
      ∃ c p, CodeOf g c code ∧ PrereqRel g c p ∧ CodeOf g p x := by
  simp only [get_direct_prerequisites, List.mem_flatMap, mem_coursesWithCode,
    mem_stepPrereq, mem_outLitS]
  constructor
  · rintro ⟨c, hc, p, hp, hcode⟩
    exact ⟨c, p, hc, hp, hcode⟩
  · rintro ⟨c, p, hc, hp, hcode⟩
    exact ⟨c, hc, p, hp, hcode⟩

/-- The two branches of `can_enroll` coincide when the prerequisite list is
empty, so the result is the missing list (sorted) with its emptiness flag,
unconditionally. -/
theorem can_enroll_eq (g : Graph) (sid code : String) :
    can_enroll g sid code =
      ((((get_prerequisites g code).filter
          fun c => ¬ c ∈ get_courses_taken g sid).mergeSort
            (fun a b => a ≤ b)).isEmpty,
        ((get_prerequisites g code).filter
          fun c => ¬ c ∈ get_courses_taken g sid).mergeSort
            (fun a b => a ≤ b)) := by
  rw [can_enroll]
  cases hP : (get_prerequisites g code).isEmpty with
  | true =>
    rw [List.isEmpty_iff] at hP
    rw [hP]
    simp
  | false =>
    simp [hP]

theorem mem_can_enroll_snd {g : Graph} {sid code x : String} :
    x ∈ (can_enroll g sid code).2 ↔
      ReachCode g code x ∧ x ∉ get_courses_taken g sid := by
  rw [can_enroll_eq]
  simp only [List.mem_mergeSort, List.mem_filter, mem_get_prerequisites,
    decide_not, Bool.not_eq_eq_eq_not, Bool.not_true, decide_eq_false_iff_not]

theorem can_enroll_fst_iff {g : Graph} {sid code : String} :
    (can_enroll g sid code).1 = true ↔
      ∀ x, ReachCode g code x → x ∈ get_courses_taken g sid := by
  have hsnd : ∀ x, x ∈ (can_enroll g sid code).2 ↔
      ReachCode g code x ∧ x ∉ get_courses_taken g sid :=
    fun x => mem_can_enroll_snd
  have hfst : (can_enroll g sid code).1 = (can_enroll g sid code).2.isEmpty := by
    rw [can_enroll_eq]
  rw [hfst, List.isEmpty_iff, List.eq_nil_iff_forall_not_mem]
  constructor
  · intro h x hx
    by_contra hnx
    exact h x ((hsnd x).mpr ⟨hx, hnx⟩)
  · intro h x hx
    obtain ⟨h1, h2⟩ := (hsnd x).mp hx
    exact h2 (h x h1)

/-! ## Claims -/

/-- C1: `can_enroll` returns `True` in its first component iff every code of
a transitive prerequisite of the course lies in the student's
completed-course set (i.e. the missing set is empty), and its second
component holds exactly the missing codes: the codes of transitive
prerequisites not in the completed-course set. -/
theorem claim_C1 (g : Graph) (sid code : String) :
    ((can_enroll g sid code).1 = true ↔
      ∀ x, ReachCode g code x → x ∈ get_courses_taken g sid) ∧
    ∀ x, x ∈ (can_enroll g sid code).2 ↔
      ReachCode g code x ∧ x ∉ get_courses_taken g sid :=
  ⟨can_enroll_fst_iff, fun _ => mem_can_enroll_snd⟩

/-- C2: `get_prerequisites` returns, without duplicates, exactly the course
codes of the courses reachable from a course carrying the given code by one
or more `hasPrerequisite` steps (the transitive closure of the prerequisite
relation). -/
theorem claim_C2 (g : Graph) (code : String) :
    (∀ x, x ∈ get_prerequisites g code ↔
      ∃ c p, CodeOf g c code ∧ Relation.TransGen (PrereqRel g) c p ∧
        CodeOf g p x) ∧
    (get_prerequisites g code).Nodup :=
  ⟨fun _ => mem_get_prerequisites, nodup_get_prerequisites g code⟩

/-- C5: every code returned by `get_direct_prerequisites` is also returned
by `get_prerequisites` (the transitive prerequisite set contains the direct
one). -/
theorem claim_C5 (g : Graph) (code x : String)
    (h : x ∈ get_direct_prerequisites g code) :
    x ∈ get_prerequisites g code := by
  obtain ⟨c, p, hc, hp, hcode⟩ := mem_get_direct_prerequisites.mp h
  exact mem_get_prerequisites.mpr ⟨c, p, hc, Relation.TransGen.single hp, hcode⟩

/-- Witness for C5 at the concrete graph `g5`. -/
theorem claim_C5_witness :
    "B" ∈ get_direct_prerequisites g5 "A" ∧ "B" ∈ get_prerequisites g5 "A" :=
  ⟨by decide, claim_C5 g5 "A" "B" (by decide)⟩

/-- C10: whenever `get_prerequisites` returns the empty set — in particular
for a course code matching no course — `can_enroll` returns `(True, [])`
rather than an error. -/
theorem claim_C10 (g : Graph) (sid code : String)
    (h : get_prerequisites g code = []) :
    can_enroll g sid code = (true, []) := by
  rw [can_enroll, if_pos (List.isEmpty_iff.mpr h)]

/-- Witness for C10: in the empty graph the code `"X"` matches no course and
enrollment is granted with no missing prerequisites. -/
theorem claim_C10_witness :
    get_prerequisites ([] : Graph) "X" = [] ∧
      can_enroll ([] : Graph) "S" "X" = (true, []) :=
  ⟨by decide, claim_C10 [] "S" "X" (by decide)⟩

/-- C7: when a course code matches no course in the graph, `get_course_info`
returns the null sentinel `none`. -/
theorem claim_C7 (g : Graph) (code : String)
    (h : coursesWithCode g code = []) : get_course_info g code = none := by
  have hrows : infoRows g code = [] := by
    rw [infoRows, h, List.flatMap_nil]
  simp only [get_course_info, hrows]

/-- Witness for C7: in the empty graph the code `"X"` matches no course. -/
theorem claim_C7_witness :
    coursesWithCode ([] : Graph) "X" = [] ∧
      get_course_info ([] : Graph) "X" = none :=
  ⟨rfl, claim_C7 [] "X" rfl⟩

/-- C8: every query method leaves the loaded graph unchanged — a single
call preserves the checker's graph, and so does any sequence of calls. -/
theorem claim_C8 (c : Checker) (q : QueryCall) (qs : List QueryCall) :
    (runCall c q).2.g = c.g ∧ (runCalls c qs).g = c.g := by
  have hone : ∀ (c' : Checker) (q' : QueryCall), (runCall c' q').2.g = c'.g :=
    fun c' q' => by cases q' <;> rfl
  refine ⟨hone c q, ?_⟩
  induction qs generalizing c with
  | nil => rfl
  | cons q' qs' ih =>
    calc (runCalls c (q' :: qs')).g
        = (runCalls (runCall c q').2 qs').g := rfl
      _ = (runCall c q').2.g := ih _
      _ = c.g := hone c q'

/-- C4 fails as stated: in `g4` there is one course in the graph but no
professor, so the workload counts sum to `0`, not to the course count `1`. -/
theorem claim_C4_cex :
    ((get_professor_workload g4).map (fun e => e.courses)).sum ≠
      (coursesInGraph g4).length := by
  have hrows : workloadRows g4 = [] := by decide
  have hgroups : workloadGroups g4 = [] := by
    rw [workloadGroups, hrows]
    rfl
  have hw : get_professor_workload g4 = [] := by
    rw [get_professor_workload, hgroups]
    exact List.mergeSort_nil
  rw [hw]
  decide

/-- C4 (amended): the workload counts sum to the number of solution rows of
the workload pattern (course–professor matches with a named professor in a
named department), which need not equal the number of courses in the
graph. -/
theorem claim_C4 (g : Graph) :
    ((get_professor_workload g).map (fun e => e.courses)).sum =
      (workloadRows g).length := by
  have hperm : ((get_professor_workload g).map fun e => e.courses).Perm
      ((workloadGroups g).map fun e => e.courses) :=
    (List.mergeSort_perm (workloadGroups g) _).map _
  rw [hperm.sum_eq, workloadGroups, List.map_map]
  have hcomp : ((fun e : WorkloadEntry => e.courses) ∘
      fun k : String × String =>
        (⟨k.1, k.2, (workloadRows g).count k⟩ : WorkloadEntry)) =
      fun k => (workloadRows g).count k := rfl
  rw [hcomp]
  have hinst : (fun k : String × String => (workloadRows g).count k) =
      fun k : String × String =>
        @List.count _ instBEqOfDecidableEq k (workloadRows g) := by
    funext k
    rw [List.count_eq_countP, @List.count_eq_countP _ instBEqOfDecidableEq]
    refine List.countP_congr fun x _ => ?_
    constructor
    · intro h
      exact decide_eq_true (beq_iff_eq.mp h)
    · intro h
      exact beq_iff_eq.mpr (of_decide_eq_true h)
  rw [hinst]
  exact List.sum_map_count_dedup_eq_length (workloadRows g)

/-- C6: the workload report is sorted by descending course count and holds
exactly one entry per `(professor, department)` group occurring in the
workload pattern's solutions. -/
theorem claim_C6 (g : Graph) :
    List.Sorted (fun a b : WorkloadEntry => b.courses ≤ a.courses)
      (get_professor_workload g) ∧
    ((get_professor_workload g).map fun e => (e.professor, e.department)).Nodup ∧
    ∀ k, (k ∈ (get_professor_workload g).map
        fun e => (e.professor, e.department)) ↔ k ∈ workloadRows g := by
  have hkeys : ((get_professor_workload g).map
      fun e => (e.professor, e.department)).Perm (workloadRows g).dedup := by
    have h1 : ((get_professor_workload g).map
        fun e => (e.professor, e.department)).Perm
        ((workloadGroups g).map fun e => (e.professor, e.department)) :=
      (List.mergeSort_perm (workloadGroups g) _).map _
    have h2 : ((workloadGroups g).map fun e => (e.professor, e.department)) =
        (workloadRows g).dedup := by
      rw [workloadGroups, List.map_map]
      have hcomp : ((fun e : WorkloadEntry => (e.professor, e.department)) ∘
          fun k : String × String =>
            (⟨k.1, k.2, (workloadRows g).count k⟩ : WorkloadEntry)) =
          fun k : String × String => (k.1, k.2) := rfl
      rw [hcomp]
      have hid : (fun k : String × String => (k.1, k.2)) =
          fun k : String × String => k := by
        funext k
        exact Prod.mk.eta
      rw [hid, List.map_id']
    rw [h2] at h1
    exact h1
  refine ⟨?_, ?_, ?_⟩
  · have hp := @List.sorted_mergeSort WorkloadEntry
      (fun a b : WorkloadEntry => decide (b.courses ≤ a.courses))
      (fun a b c hab hbc => by
        rw [decide_eq_true_eq] at hab hbc ⊢
        omega)
      (fun a b => by
        rcases Nat.le_total b.courses a.courses with h | h <;>
          simp [decide_eq_true_eq, h])
      (workloadGroups g)
    rw [List.Sorted]
    exact hp.imp fun {a b} h => decide_eq_true_eq.mp h
  · exact hkeys.symm.nodup (List.nodup_dedup _)
  · intro k
    rw [hkeys.mem_iff, List.mem_dedup]

/-! ## The course-listing query -/

theorem mem_courseRows {g : Graph} {cc nm : String} {cr : Int} :
    (cc, nm, cr) ∈ courseRows g ↔
      ∃ c, IsCourse g c ∧ CodeOf g c cc ∧ NameOf g c nm ∧
        CreditsOf g c cr := by
  simp only [courseRows, List.mem_flatMap, List.mem_map, mem_subjectsWith,
    mem_outLitS, mem_outLitI, Prod.mk.injEq]
  constructor
  · rintro ⟨c, hc, cc', hcc, nm', hnm, cr', hcr, h1, h2, h3⟩
    subst h1; subst h2; subst h3
    exact ⟨c, hc, hcc, hnm, hcr⟩
  · rintro ⟨c, hc, hcc, hnm, hcr⟩
    exact ⟨c, hc, cc, hcc, nm, hnm, cr, hcr, rfl, rfl, rfl⟩

theorem mem_get_available_courses {g : Graph} {sid : String}
    {a : AvailableCourse} :
    a ∈ get_available_courses g sid ↔
      (∃ c, IsCourse g c ∧ CodeOf g c a.code ∧ NameOf g c a.name ∧
        CreditsOf g c a.credits) ∧
      a.code ∉ get_courses_taken g sid ∧
      (can_enroll g sid a.code).1 = true := by
  obtain ⟨ac, an, acr⟩ := a
  simp only [get_available_courses, List.mem_filterMap]
  constructor
  · rintro ⟨⟨r1, r2, r3⟩, hr, hsome⟩
    by_cases h1 : r1 ∈ get_courses_taken g sid
    · rw [if_pos h1] at hsome
      exact absurd hsome (by simp)
    · rw [if_neg h1] at hsome
      by_cases h2 : (can_enroll g sid r1).1 = true
      · rw [if_pos h2] at hsome
        simp only [Option.some.injEq, AvailableCourse.mk.injEq] at hsome
        obtain ⟨e1, e2, e3⟩ := hsome
        subst e1; subst e2; subst e3
        exact ⟨mem_courseRows.mp hr, h1, h2⟩
      · rw [if_neg h2] at hsome
        exact absurd hsome (by simp)
  · rintro ⟨hrow, hnot, hen⟩
    refine ⟨(ac, an, acr), mem_courseRows.mpr hrow, ?_⟩
    rw [if_neg hnot, if_pos hen]

/-- C3 fails as stated: in `g3` the course `C1` is a declared course with
code `"X"`, the code is not taken and `can_enroll` accepts it, yet no entry
with that code is returned (the course lacks a `courseName` and
`creditHours`, which the listing query requires). -/
theorem claim_C3_cex :
    (⟨"C1", "a", .iri "Course"⟩ : Triple) ∈ g3 ∧
    (⟨"C1", "courseCode", .litS "X"⟩ : Triple) ∈ g3 ∧
    "X" ∉ get_courses_taken g3 "S" ∧ (can_enroll g3 "S" "X").1 = true ∧
    ∀ a ∈ get_available_courses g3 "S", a.code ≠ "X" := by decide

/-- C3 (amended): `get_available_courses` returns all and only the rows of
declared courses that carry a `courseCode`, `courseName` and `creditHours`,
whose code is not in the student's completed-course set and for which
`can_enroll` returns `True`; in particular no returned code is in
`get_courses_taken`. -/
theorem claim_C3 (g : Graph) (sid : String) (a : AvailableCourse) :
    (a ∈ get_available_courses g sid ↔
      (∃ c, IsCourse g c ∧ CodeOf g c a.code ∧ NameOf g c a.name ∧
        CreditsOf g c a.credits) ∧
      a.code ∉ get_courses_taken g sid ∧
      (can_enroll g sid a.code).1 = true) ∧
    (a ∈ get_available_courses g sid → a.code ∉ get_courses_taken g sid) :=
  ⟨mem_get_available_courses,
    fun h => (mem_get_available_courses.mp h).2.1⟩

/-! ## The course-information query -/

theorem optJoin_ne_nil (l : List String) : optJoin l ≠ [] := by
  cases l <;> simp [optJoin]

theorem infoRows_eq {g : Graph} {code c nm : String} {cr : Int}
    (h1 : coursesWithCode g code = [c])
    (h2 : outLitS g c "courseName" = [nm])
    (h3 : outLitI g c "creditHours" = [cr]) :
    infoRows g code = (optJoin (profNamesOf g c)).flatMap fun pn =>
      (optJoin (deptNamesOf g c)).map fun dn => (nm, cr, pn, dn) := by
  rw [infoRows, h1]
  simp only [List.flatMap_cons, List.flatMap_nil, List.append_nil, h2, h3]

/-- C9 fails as stated: in `g9` the course with code `"X"` is `taughtBy` a
professor that has a `professorName` (the empty string), yet the
`professor` field is the default `"N/A"`, not that name — Python treats the
empty-string literal as falsy. -/
theorem claim_C9_cex :
    (⟨"C1", "taughtBy", .iri "P1"⟩ : Triple) ∈ g9 ∧
    (⟨"P1", "professorName", .litS ""⟩ : Triple) ∈ g9 ∧
    (get_course_info g9 "X").map CourseInfo.professor = some "N/A" ∧
    (get_course_info g9 "X").map CourseInfo.professor ≠ some "" := by decide

/-- C9 (amended): for a code matching exactly one course with a unique
`courseName` and `creditHours`, `get_course_info` fills `professor` with
the professor's name when the `taughtBy`/`professorName` pattern has
exactly one solution and that name is nonempty, and with `"N/A"` when the
pattern has no solution or the name is the empty string; likewise
`department` via `belongsToDepartment`/`departmentName`. -/
theorem claim_C9 (g : Graph) (code c nm : String) (cr : Int)
    (h1 : coursesWithCode g code = [c])
    (h2 : outLitS g c "courseName" = [nm])
    (h3 : outLitI g c "creditHours" = [cr]) :
    ∃ info, get_course_info g code = some info ∧
      info.name = nm ∧ info.credits = cr ∧
      (profNamesOf g c = [] → info.professor = "N/A") ∧
      (∀ pn, profNamesOf g c = [pn] → pn ≠ "" → info.professor = pn) ∧
      (∀ pn, profNamesOf g c = [pn] → pn = "" → info.professor = "N/A") ∧
      (deptNamesOf g c = [] → info.department = "N/A") ∧
      (∀ dn, deptNamesOf g c = [dn] → dn ≠ "" → info.department = dn) ∧
      (∀ dn, deptNamesOf g c = [dn] → dn = "" → info.department = "N/A") := by
  have hrows := infoRows_eq h1 h2 h3
  obtain ⟨p0, P', hP⟩ :=
    List.exists_cons_of_ne_nil (optJoin_ne_nil (profNamesOf g c))
  obtain ⟨d0, D', hD⟩ :=
    List.exists_cons_of_ne_nil (optJoin_ne_nil (deptNamesOf g c))
  rw [hP, hD] at hrows
  have hrow0 : infoRows g code = (nm, cr, p0, d0) ::
      ((D'.map fun dn => (nm, cr, p0, dn)) ++
        (P'.flatMap fun pn =>
          ((d0 :: D').map fun dn => (nm, cr, pn, dn)))) := by
    rw [hrows]
    simp
  have hinfo : get_course_info g code = some
      { code := code, name := nm, credits := cr
        professor := orNA p0, department := orNA d0
        direct_prerequisites := get_direct_prerequisites g code
        all_prerequisites := get_prerequisites g code } := by
    simp only [get_course_info, hrow0]
  refine ⟨_, hinfo, rfl, rfl, ?_, ?_, ?_, ?_, ?_, ?_⟩
  · intro hpe
    rw [hpe] at hP
    simp only [optJoin, List.cons.injEq] at hP
    rw [← hP.1]
    rfl
  · intro pn hpn hne
    rw [hpn] at hP
    simp only [optJoin, List.map_cons, List.map_nil, List.cons.injEq] at hP
    rw [← hP.1]
    simp [orNA, hne]
  · intro pn hpn he
    rw [hpn] at hP
    simp only [optJoin, List.map_cons, List.map_nil, List.cons.injEq] at hP
    rw [← hP.1]
    simp [orNA, he]
  · intro hde
    rw [hde] at hD
    simp only [optJoin, List.cons.injEq] at hD
    rw [← hD.1]
    rfl
  · intro dn hdn hne
    rw [hdn] at hD
    simp only [optJoin, List.map_cons, List.map_nil, List.cons.injEq] at hD
    rw [← hD.1]
    simp [orNA, hne]
  · intro dn hdn he
    rw [hdn] at hD
    simp only [optJoin, List.map_cons, List.map_nil, List.cons.injEq] at hD
    rw [← hD.1]
    simp [orNA, he]

/-- Witness for the amended C9 at the concrete graph `g9w`: course `C1`
(code `"X"`) is taught by a professor named `"Ada"` and has no department
link, so the record shows `"Ada"` and `"N/A"`. -/
theorem claim_C9_witness :
    ∃ info, get_course_info g9w "X" = some info ∧
      info.name = "N" ∧ info.credits = 3 ∧
      (profNamesOf g9w "C1" = [] → info.professor = "N/A") ∧
      (∀ pn, profNamesOf g9w "C1" = [pn] → pn ≠ "" → info.professor = pn) ∧
      (∀ pn, profNamesOf g9w "C1" = [pn] → pn = "" →
        info.professor = "N/A") ∧
      (deptNamesOf g9w "C1" = [] → info.department = "N/A") ∧
      (∀ dn, deptNamesOf g9w "C1" = [dn] → dn ≠ "" →
        info.department = dn) ∧
      (∀ dn, deptNamesOf g9w "C1" = [dn] → dn = "" →
        info.department = "N/A") :=
  claim_C9 g9w "X" "C1" "N" 3 (by decide) (by decide) (by decide)

end UCO
